import Mathlib

/-!
Verification of the senior-bfa navigation client.

The repository consists of a Next.js frontend whose algorithmic core is the
Google encoded-polyline codec (`@mapbox/polyline`), its GeoJSON adapters, the
route-rendering component `RouteMap` that consumes the codec, and two small
HTTP proxy handlers.  The repository itself only ships the *type declarations*
of the codec (a `declare module "@mapbox/polyline"` file); the implementation
lives outside the repository, so the codec below is modelled from the spec
(§4.1, §7 of the design document), which fixes the algorithm character by
character.  The renderer and the HTTP handler are embedded from their sources
(`src/frontend/components/direction-icon.tsx`,
`src/frontend/app/api/onemap/search/route.ts`).

Numbers: coordinates are embedded as rationals (the JS sources use IEEE
doubles only as a container for decimal degree values), machine integers of
the codec are `Nat`/`Int` (the scaled values involved are far below 2^53, so
JS arithmetic on them is exact).
-/

/-- The failure kinds of the codec (spec §7): malformed encoded input, and a
negative or non-integer precision argument. -/
inductive PolyError where
  | malformedInput
  | invalidPrecision
  deriving DecidableEq, Repr

instance exceptDecEq {ε α : Type} [DecidableEq ε] [DecidableEq α] :
    DecidableEq (Except ε α) := fun x y =>
  match x, y with
  | .ok a, .ok b =>
    if h : a = b then .isTrue (by rw [h])
    else .isFalse (by intro hc; cases hc; exact h rfl)
  | .error e, .error f =>
    if h : e = f then .isTrue (by rw [h])
    else .isFalse (by intro hc; cases hc; exact h rfl)
  | .ok _, .error _ => .isFalse (by intro hc; cases hc)
  | .error _, .ok _ => .isFalse (by intro hc; cases hc)

/-- Modelled from the spec: the codec implementation is absent from the
repository (only its type declarations are present, `src/unnamed/part_002`).
Spec §4.1: "The unsigned value is split into 5-bit chunks, least-significant
chunk first; every chunk except the last has bit 5 (0x20) set to indicate
continuation".  `chunksAux fuel n` produces the chunk values before the +63
ASCII offset; for values below 64 the continuation bit being set is the same
as the value being ≥ 32, which is how it is written here.  The `fuel`
argument only bounds the number of loop iterations (any `fuel` with
`n < 32 * fuel + 32` computes the full chunk list). -/
def chunksAux (fuel : ℕ) (n : ℕ) : List ℕ :=
  match fuel with
  | 0 => [n]
  | f + 1 => if n < 32 then [n] else (n % 32 + 32) :: chunksAux f (n / 32)

/-- The 5-bit chunk values (low chunk first) of an unsigned value, spec §4.1. -/
def encodeChunks (n : ℕ) : List ℕ := chunksAux n n

/-- Modelled from the spec §4.1: zig-zag encoding of a signed delta - "left
shifting its bits by one and inverting all bits if the original value was
negative". -/
def zigzag (d : ℤ) : ℕ := if d < 0 then (-(2 * d) - 1).toNat else (2 * d).toNat

/-- Modelled from the spec §4.1: "if the reconstructed unsigned value's low
bit is 1, the signed delta is the bitwise complement of the value
right-shifted by one; otherwise it is the value right-shifted by one". -/
def unzigzag (n : ℕ) : ℤ :=
  if n % 2 = 1 then -(((n + 1) / 2 : ℕ) : ℤ) else ((n / 2 : ℕ) : ℤ)

/-- Modelled from the spec §4.1: per point emit the chunks of the zig-zagged
latitude delta, then of the longitude delta, carrying the previous scaled
point; the first point is encoded against (0, 0). -/
def encodeDeltas : List (ℤ × ℤ) → ℤ → ℤ → List ℕ
  | [], _, _ => []
  | c :: rest, prevLat, prevLon =>
    encodeChunks (zigzag (c.1 - prevLat)) ++
      (encodeChunks (zigzag (c.2 - prevLon)) ++ encodeDeltas rest c.1 c.2)

/-- Modelled from the spec §4.1: reconstruct one unsigned value from 5-bit
chunks "until a chunk lacks the continuation bit"; an exhausted input mid-value
is the malformed-input case of §7.  Chunk values are character code − 63 and
are ≤ 63 for in-range input, so the continuation bit test is `32 ≤ b`. -/
def readValue : List ℕ → ℕ → ℕ → Except PolyError (ℕ × List ℕ)
  | [], _, _ => .error .malformedInput
  | b :: rest, shift, acc =>
    if b < 32 then .ok (acc + b % 32 * shift, rest)
    else readValue rest (shift * 32) (acc + b % 32 * shift)

/-- Modelled from the spec §4.1: the decode loop - alternate latitude delta and
longitude delta, adding each to the running accumulators, until the input is
exhausted.  `fuel` bounds the iterations (the input length suffices since each
point consumes at least two chunks); the `fuel = 0` arm is unreachable under
that use. -/
def decodeLoopAux : ℕ → List ℕ → ℤ → ℤ → Except PolyError (List (ℤ × ℤ))
  | _, [], _, _ => .ok []
  | 0, _ :: _, _, _ => .error .malformedInput
  | fuel + 1, b :: bs, lat, lon =>
    match readValue (b :: bs) 1 0 with
    | .error e => .error e
    | .ok (vlat, r1) =>
      match readValue r1 1 0 with
      | .error e => .error e
      | .ok (vlon, r2) =>
        match decodeLoopAux fuel r2 (lat + unzigzag vlat) (lon + unzigzag vlon) with
        | .error e => .error e
        | .ok rest => .ok ((lat + unzigzag vlat, lon + unzigzag vlon) :: rest)

/-- Modelled from the spec §4.1: "Scale each coordinate's latitude and
longitude by 10^precision and round to the nearest integer". -/
def scalePoint (p : ℕ) (c : ℚ × ℚ) : ℤ × ℤ :=
  (round (c.1 * 10 ^ p), round (c.2 * 10 ^ p))

/-- Modelled from the spec §4.1: "accumulators, divided by 10^precision, give
the decoded coordinate's latitude/longitude". -/
def unscalePoint (p : ℕ) (z : ℤ × ℤ) : ℚ × ℚ :=
  ((z.1 : ℚ) / 10 ^ p, (z.2 : ℚ) / 10 ^ p)

/-- Modelled from the spec §4.1: Encode at a non-negative integer precision -
scale, delta, zig-zag, chunk, offset each chunk by 63 and emit it as one ASCII
character. -/
def encodeCore (coords : List (ℚ × ℚ)) (p : ℕ) : String :=
  String.mk ((encodeDeltas (coords.map (scalePoint p)) 0 0).map
    (fun b => Char.ofNat (b + 63)))

/-- Spec §6/§7: the encoded wire format uses the printable character range
63-126; a byte outside it is malformed input. -/
def validCharCode (c : Char) : Bool := 63 ≤ c.toNat && c.toNat ≤ 126

/-- Modelled from the spec §4.1/§7: Decode at a non-negative integer
precision.  Characters are validated against the wire range, mapped to chunk
values (code − 63) and consumed by the decode loop; a final value that ends
mid-chunk and any out-of-range byte signal `malformedInput` (fail-fast, as §9
mandates). -/
def decodeCore (s : String) (p : ℕ) : Except PolyError (List (ℚ × ℚ)) :=
  if s.data.all validCharCode then
    (decodeLoopAux s.data.length (s.data.map (fun c => c.toNat - 63)) 0 0).map
      (List.map (unscalePoint p))
  else .error .malformedInput

/-- Spec §7: "precision must be a non-negative integer". -/
def validPrecision (prec : ℚ) : Prop := 0 ≤ prec ∧ prec.den = 1

instance (prec : ℚ) : Decidable (validPrecision prec) := by
  unfold validPrecision; infer_instance

/-- Modelled from the spec: Encode with the precision contract of §7 - a
negative or non-integer precision is an immediate `invalidPrecision` error. -/
def encode (coords : List (ℚ × ℚ)) (prec : ℚ) : Except PolyError String :=
  if validPrecision prec then .ok (encodeCore coords prec.num.toNat)
  else .error .invalidPrecision

/-- Modelled from the spec: Decode with the precision contract of §7. -/
def decode (s : String) (prec : ℚ) : Except PolyError (List (ℚ × ℚ)) :=
  if validPrecision prec then decodeCore s prec.num.toNat
  else .error .invalidPrecision

/-- GeoJSON linear path geometry, longitude first (spec §4.1). -/
structure LineString where
  coordinates : List (ℚ × ℚ)
  deriving DecidableEq

/-- The single axis-order swap between the codec's latitude-first pairs and
GeoJSON's longitude-first pairs. -/
def swapAxes (c : ℚ × ℚ) : ℚ × ℚ := (c.2, c.1)

/-- Modelled from the spec §4.1: `toGeoJSON` wraps Decode's result as a
LineString, swapping each pair to longitude-first exactly once. -/
def toGeoJSON (s : String) (prec : ℚ) : Except PolyError LineString :=
  (decode s prec).map (fun l => ⟨l.map swapAxes⟩)

/-- Modelled from the spec §4.1: `fromGeoJSON` swaps the coordinate list back
to latitude-first exactly once and delegates to Encode. -/
def fromGeoJSON (g : LineString) (prec : ℚ) : Except PolyError String :=
  encode (g.coordinates.map swapAxes) prec

/-! ### Basic facts about the chunk and value layers -/

theorem chunksAux_ne_nil (fuel n : ℕ) : chunksAux fuel n ≠ [] := by
  cases fuel with
  | zero => simp [chunksAux]
  | succ f => unfold chunksAux; split <;> simp

theorem chunksAux_mem_le (fuel : ℕ) : ∀ n, n < 32 * fuel + 32 →
    ∀ b ∈ chunksAux fuel n, b ≤ 63 := by
  induction fuel with
  | zero =>
    intro n hn b hb
    simp [chunksAux] at hb
    omega
  | succ f ih =>
    intro n hn b hb
    unfold chunksAux at hb
    split at hb
    · simp at hb; omega
    · rcases List.mem_cons.mp hb with h | h
      · have := Nat.mod_lt n (y := 32) (by omega)
        omega
      · exact ih (n / 32) (by omega) b h

theorem encodeChunks_mem_le (n : ℕ) : ∀ b ∈ encodeChunks n, b ≤ 63 :=
  chunksAux_mem_le n n (by omega)

theorem readValue_chunksAux (fuel : ℕ) : ∀ n, n < 32 * fuel + 32 →
    ∀ shift acc rest, readValue (chunksAux fuel n ++ rest) shift acc =
      .ok (acc + n * shift, rest) := by
  induction fuel with
  | zero =>
    intro n hn shift acc rest
    show readValue (n :: rest) shift acc = _
    simp only [readValue]
    rw [if_pos (by omega), Nat.mod_eq_of_lt (by omega)]
  | succ f ih =>
    intro n hn shift acc rest
    unfold chunksAux
    split
    · show readValue (n :: rest) shift acc = _
      simp only [readValue]
      rw [if_pos (by omega), Nat.mod_eq_of_lt (by omega)]
    · show readValue ((n % 32 + 32) :: (chunksAux f (n / 32) ++ rest)) shift acc = _
      simp only [readValue]
      rw [if_neg (by omega)]
      have hdiv : n / 32 < 32 * f + 32 := by omega
      rw [ih (n / 32) hdiv (shift * 32) (acc + (n % 32 + 32) % 32 * shift) rest]
      have hmod : (n % 32 + 32) % 32 = n % 32 := by omega
      have hsplit : n % 32 + 32 * (n / 32) = n := Nat.mod_add_div n 32
      congr 2
      calc acc + (n % 32 + 32) % 32 * shift + n / 32 * (shift * 32)
          = acc + ((n % 32 + 32) % 32 + 32 * (n / 32)) * shift := by ring
        _ = acc + n * shift := by rw [hmod, hsplit]

theorem readValue_encodeChunks (n : ℕ) (rest : List ℕ) :
    readValue (encodeChunks n ++ rest) 1 0 = .ok (n, rest) := by
  have := readValue_chunksAux n n (by omega) 1 0 rest
  simpa [encodeChunks] using this

theorem unzigzag_zigzag (d : ℤ) : unzigzag (zigzag d) = d := by
  unfold zigzag unzigzag
  split_ifs <;> omega

theorem readValue_length_lt : ∀ l shift acc v r,
    readValue l shift acc = .ok (v, r) → r.length < l.length := by
  intro l
  induction l with
  | nil => intro shift acc v r h; simp [readValue] at h
  | cons b rest ih =>
    intro shift acc v r h
    simp only [readValue] at h
    split at h
    · cases h; simp
    · exact Nat.lt_trans (ih _ _ _ _ h) (by simp)

theorem encodeChunks_ne_nil (n : ℕ) : encodeChunks n ≠ [] := chunksAux_ne_nil n n

theorem decodeLoopAux_cons (fuel b : ℕ) (bs : List ℕ) (lat lon : ℤ) :
    decodeLoopAux (fuel + 1) (b :: bs) lat lon =
      match readValue (b :: bs) 1 0 with
      | .error e => .error e
      | .ok (vlat, r1) =>
        match readValue r1 1 0 with
        | .error e => .error e
        | .ok (vlon, r2) =>
          match decodeLoopAux fuel r2 (lat + unzigzag vlat) (lon + unzigzag vlon) with
          | .error e => .error e
          | .ok rest => .ok ((lat + unzigzag vlat, lon + unzigzag vlon) :: rest) := rfl

theorem decodeLoopAux_encodeDeltas (pts : List (ℤ × ℤ)) :
    ∀ fuel lat lon, (encodeDeltas pts lat lon).length ≤ fuel →
      decodeLoopAux fuel (encodeDeltas pts lat lon) lat lon = .ok pts := by
  induction pts with
  | nil =>
    intro fuel lat lon _
    cases fuel <;> rfl
  | cons c rest ih =>
    intro fuel lat lon hlen
    obtain ⟨a, b⟩ := c
    simp only [encodeDeltas] at hlen ⊢
    have h1 : encodeChunks (zigzag (a - lat)) ≠ [] := encodeChunks_ne_nil _
    have h2 : encodeChunks (zigzag (b - lon)) ≠ [] := encodeChunks_ne_nil _
    obtain ⟨x, xs, hx⟩ := List.exists_cons_of_ne_nil h1
    have hlen1 : 1 ≤ (encodeChunks (zigzag (a - lat))).length := by
      rw [hx]; simp
    have hlen2 : 1 ≤ (encodeChunks (zigzag (b - lon))).length := by
      cases hzy : encodeChunks (zigzag (b - lon)) with
      | nil => exact absurd hzy h2
      | cons y ys => simp
    simp only [List.length_append] at hlen
    obtain ⟨f, rfl⟩ : ∃ f, fuel = f + 1 := by
      cases fuel with
      | zero => omega
      | succ f => exact ⟨f, rfl⟩
    rw [hx]
    simp only [List.cons_append]
    have hr1 : readValue
        (x :: (xs ++ (encodeChunks (zigzag (b - lon)) ++ encodeDeltas rest a b))) 1 0 =
        .ok (zigzag (a - lat), encodeChunks (zigzag (b - lon)) ++ encodeDeltas rest a b) := by
      rw [show x :: (xs ++ (encodeChunks (zigzag (b - lon)) ++ encodeDeltas rest a b)) =
          (x :: xs) ++ (encodeChunks (zigzag (b - lon)) ++ encodeDeltas rest a b) from rfl,
        ← hx]
      exact readValue_encodeChunks _ _
    have hr2 : readValue (encodeChunks (zigzag (b - lon)) ++ encodeDeltas rest a b) 1 0 =
        .ok (zigzag (b - lon), encodeDeltas rest a b) := readValue_encodeChunks _ _
    rw [decodeLoopAux_cons]
    simp only [hr1, hr2, unzigzag_zigzag]
    have ha : lat + (a - lat) = a := by ring
    have hb : lon + (b - lon) = b := by ring
    rw [ha, hb, ih f a b (by omega)]

/-! ### Character layer -/

theorem toNat_charOfNat_of_le (n : ℕ) (h : n ≤ 126) : (Char.ofNat n).toNat = n := by
  interval_cases n <;> decide

theorem encodeDeltas_mem_le (pts : List (ℤ × ℤ)) :
    ∀ lat lon, ∀ b ∈ encodeDeltas pts lat lon, b ≤ 63 := by
  induction pts with
  | nil => intro lat lon b hb; simp [encodeDeltas] at hb
  | cons c rest ih =>
    intro lat lon b hb
    simp only [encodeDeltas, List.mem_append] at hb
    rcases hb with h | h | h
    · exact encodeChunks_mem_le _ b h
    · exact encodeChunks_mem_le _ b h
    · exact ih c.1 c.2 b h

theorem decodeCore_encodeCore (coords : List (ℚ × ℚ)) (p : ℕ) :
    decodeCore (encodeCore coords p) p =
      .ok ((coords.map (scalePoint p)).map (unscalePoint p)) := by
  set deltas := encodeDeltas (coords.map (scalePoint p)) 0 0 with hdeltas
  have hmem : ∀ b ∈ deltas, b ≤ 63 := encodeDeltas_mem_le _ 0 0
  have hdata : (encodeCore coords p).data = deltas.map (fun b => Char.ofNat (b + 63)) := rfl
  have hcodes : ((encodeCore coords p).data.map (fun c => c.toNat - 63)) = deltas := by
    rw [hdata, List.map_map]
    have : ∀ b ∈ deltas, ((fun c : Char => c.toNat - 63) ∘ fun b => Char.ofNat (b + 63)) b =
        id b := by
      intro b hb
      have hb63 := hmem b hb
      simp only [Function.comp_apply, id_eq]
      rw [toNat_charOfNat_of_le (b + 63) (by omega)]
      omega
    rw [List.map_congr_left this, List.map_id]
  have hvalid : (encodeCore coords p).data.all validCharCode = true := by
    rw [hdata, List.all_eq_true]
    intro c hc
    obtain ⟨b, hb, rfl⟩ := List.mem_map.mp hc
    have hb63 := hmem b hb
    simp only [validCharCode, Bool.and_eq_true, decide_eq_true_eq]
    rw [toNat_charOfNat_of_le (b + 63) (by omega)]
    omega
  unfold decodeCore
  rw [if_pos hvalid, hcodes]
  have hlen : deltas.length ≤ (encodeCore coords p).data.length := by
    rw [hdata, List.length_map]
  rw [show decodeLoopAux (encodeCore coords p).data.length deltas 0 0 =
      .ok (coords.map (scalePoint p)) from
    decodeLoopAux_encodeDeltas (coords.map (scalePoint p)) _ 0 0 (by
      rw [hdata, List.length_map])]
  rfl

/-! ### Precision wrapper bridges -/

theorem validPrecision_natCast (p : ℕ) : validPrecision (p : ℚ) := by
  constructor
  · exact_mod_cast Nat.cast_nonneg p
  · exact Rat.den_natCast p

theorem natCast_num_toNat (p : ℕ) : ((p : ℚ)).num.toNat = p := by
  rw [Rat.num_natCast, Int.toNat_natCast]

theorem encode_natCast (coords : List (ℚ × ℚ)) (p : ℕ) :
    encode coords (p : ℚ) = .ok (encodeCore coords p) := by
  unfold encode
  rw [if_pos (validPrecision_natCast p), natCast_num_toNat]

theorem decode_natCast (s : String) (p : ℕ) :
    decode s (p : ℚ) = decodeCore s p := by
  unfold decode
  rw [if_pos (validPrecision_natCast p), natCast_num_toNat]

/-! ### Rounding bound -/

theorem abs_sub_round_div_pow (q : ℚ) (p : ℕ) :
    |q - ((round (q * 10 ^ p) : ℤ) : ℚ) / 10 ^ p| ≤ 1 / (2 * 10 ^ p) := by
  have h10 : (0 : ℚ) < 10 ^ p := by positivity
  have h := abs_sub_round (q * 10 ^ p)
  have hrw : q - ((round (q * 10 ^ p) : ℤ) : ℚ) / 10 ^ p =
      (q * 10 ^ p - ((round (q * 10 ^ p) : ℤ) : ℚ)) / 10 ^ p := by
    field_simp
  rw [hrw, abs_div, abs_of_pos h10]
  rw [div_le_div_iff h10 (by positivity)]
  calc |q * 10 ^ p - ((round (q * 10 ^ p) : ℤ) : ℚ)| * (2 * 10 ^ p)
      ≤ (1 / 2) * (2 * 10 ^ p) := by
        apply mul_le_mul_of_nonneg_right h (by positivity)
    _ = 1 * 10 ^ p := by ring

theorem encodeCore_all_valid (coords : List (ℚ × ℚ)) (p : ℕ) :
    (encodeCore coords p).data.all validCharCode = true := by
  rw [show (encodeCore coords p).data =
      (encodeDeltas (coords.map (scalePoint p)) 0 0).map (fun b => Char.ofNat (b + 63)) from rfl,
    List.all_eq_true]
  intro c hc
  obtain ⟨b, hb, rfl⟩ := List.mem_map.mp hc
  have hb63 := encodeDeltas_mem_le _ 0 0 b hb
  simp only [validCharCode, Bool.and_eq_true, decide_eq_true_eq]
  rw [toNat_charOfNat_of_le (b + 63) (by omega)]
  omega

theorem encodeCore_codes (coords : List (ℚ × ℚ)) (p : ℕ) :
    (encodeCore coords p).data.map (fun c => c.toNat - 63) =
      encodeDeltas (coords.map (scalePoint p)) 0 0 := by
  rw [show (encodeCore coords p).data =
      (encodeDeltas (coords.map (scalePoint p)) 0 0).map (fun b => Char.ofNat (b + 63)) from rfl,
    List.map_map]
  have h : ∀ b ∈ encodeDeltas (coords.map (scalePoint p)) 0 0,
      ((fun c : Char => c.toNat - 63) ∘ fun b => Char.ofNat (b + 63)) b = id b := by
    intro b hb
    have hb63 := encodeDeltas_mem_le _ 0 0 b hb
    simp only [Function.comp_apply, id_eq]
    rw [toNat_charOfNat_of_le (b + 63) (by omega)]
    omega
  rw [List.map_congr_left h, List.map_id]

theorem scalePoint_unscalePoint (p : ℕ) (z : ℤ × ℤ) :
    scalePoint p (unscalePoint p z) = z := by
  unfold scalePoint unscalePoint
  have h10 : ((10 : ℚ) ^ p) ≠ 0 := by positivity
  simp only [div_mul_cancel₀ _ h10, round_intCast]

/-- C1: for every coordinate sequence S and every integer precision P ≥ 0,
Decode(Encode(S, P), P) succeeds and is a sequence of the same length as S
whose latitude and longitude at each position differ from those of S by at
most 0.5 · 10⁻ᴾ degrees per axis. -/
theorem roundtrip_within_half_step (coords : List (ℚ × ℚ)) (p : ℕ) :
    ∃ s l, encode coords (p : ℚ) = .ok s ∧ decode s (p : ℚ) = .ok l ∧
      l.length = coords.length ∧
      List.Forall₂ (fun c d => |c.1 - d.1| ≤ 1 / (2 * 10 ^ p) ∧
        |c.2 - d.2| ≤ 1 / (2 * 10 ^ p)) coords l := by
  refine ⟨encodeCore coords p, (coords.map (scalePoint p)).map (unscalePoint p),
    encode_natCast coords p, ?_, ?_, ?_⟩
  · rw [decode_natCast]
    exact decodeCore_encodeCore coords p
  · simp
  · rw [List.map_map, List.forall₂_map_right_iff, List.forall₂_same]
    intro c _
    exact ⟨abs_sub_round_div_pow c.1 p, abs_sub_round_div_pow c.2 p⟩

theorem concat_last_eq {α : Type} (l1 : List α) (a : α) (l2 : List α) (b : α)
    (h : l1 ++ [a] = l2 ++ [b]) : a = b := by
  have h2 := congrArg List.getLast? h
  simpa using h2

theorem readValue_ok_decomp : ∀ (l : List ℕ) (shift acc v : ℕ) (r : List ℕ),
    readValue l shift acc = .ok (v, r) → ∃ mid t, l = mid ++ t :: r ∧ t < 32 := by
  intro l
  induction l with
  | nil =>
    intro shift acc v r h
    simp [readValue] at h
  | cons b rest ih =>
    intro shift acc v r h
    simp only [readValue] at h
    split at h
    · rename_i hb
      injection h with hpair
      injection hpair with hv hr
      subst hr
      exact ⟨[], b, by simp, hb⟩
    · rename_i hb
      obtain ⟨mid, t, heq, ht⟩ := ih _ _ _ _ h
      refine ⟨b :: mid, t, ?_, ht⟩
      rw [List.cons_append, heq]

theorem readValue_error_eq : ∀ (l : List ℕ) (shift acc : ℕ) (e : PolyError),
    readValue l shift acc = .error e → e = .malformedInput := by
  intro l
  induction l with
  | nil =>
    intro shift acc e h
    simp only [readValue] at h
    injection h with h2
    exact h2.symm
  | cons b rest ih =>
    intro shift acc e h
    simp only [readValue] at h
    split at h
    · exact absurd h (by simp)
    · exact ih _ _ _ h

theorem decodeLoopAux_last_continuation :
    ∀ (fuel : ℕ) (init : List ℕ) (b : ℕ) (lat lon : ℤ), 32 ≤ b →
      decodeLoopAux fuel (init ++ [b]) lat lon = .error .malformedInput := by
  intro fuel
  induction fuel with
  | zero =>
    intro init b lat lon hb
    cases init with
    | nil => rfl
    | cons y ys => rfl
  | succ f ih =>
    intro init b lat lon hb
    cases init with
    | nil =>
      rw [List.nil_append, decodeLoopAux_cons]
      have hr : readValue [b] 1 0 = .error .malformedInput := by
        simp only [readValue]
        rw [if_neg (by omega)]
      simp only [hr]
    | cons y ys =>
      rw [List.cons_append, decodeLoopAux_cons]
      cases hr1 : readValue (y :: (ys ++ [b])) 1 0 with
      | error e =>
        have he := readValue_error_eq _ _ _ _ hr1
        subst he
        simp only [hr1]
      | ok p1 =>
        obtain ⟨vlat, r1⟩ := p1
        obtain ⟨mid, t, hdec, ht⟩ := readValue_ok_decomp _ _ _ _ _ hr1
        have hdec2 : (y :: ys) ++ [b] = mid ++ t :: r1 := by
          rw [List.cons_append, hdec]
        have hr1ne : r1 ≠ [] := by
          intro hnil
          subst hnil
          have hlast := concat_last_eq _ _ _ _ hdec2
          omega
        obtain ⟨r1i, rb, hr1eq⟩ := (List.eq_nil_or_concat' r1).resolve_left hr1ne
        have hrb : rb = b := by
          have h3 : (y :: ys) ++ [b] = (mid ++ t :: r1i) ++ [rb] := by
            rw [hdec2, hr1eq]
            simp
          exact (concat_last_eq _ _ _ _ h3).symm
        rw [hrb] at hr1eq
        cases hr2 : readValue r1 1 0 with
        | error e =>
          have he := readValue_error_eq _ _ _ _ hr2
          subst he
          simp only [hr1, hr2]
        | ok p2 =>
          obtain ⟨vlon, r2⟩ := p2
          obtain ⟨mid2, t2, hdec3, ht2⟩ := readValue_ok_decomp _ _ _ _ _ hr2
          rw [hr1eq] at hdec3
          have hr2ne : r2 ≠ [] := by
            intro hnil
            subst hnil
            have hlast := concat_last_eq _ _ _ _ hdec3
            omega
          obtain ⟨r2i, rb2, hr2eq⟩ := (List.eq_nil_or_concat' r2).resolve_left hr2ne
          have hrb2 : rb2 = b := by
            have h3 : r1i ++ [b] = (mid2 ++ t2 :: r2i) ++ [rb2] := by
              rw [hdec3, hr2eq]
              simp
            exact (concat_last_eq _ _ _ _ h3).symm
          rw [hrb2] at hr2eq
          have hrec := ih r2i b (lat + unzigzag vlat) (lon + unzigzag vlon) hb
          rw [← hr2eq] at hrec
          simp only [hr1, hr2, hrec]

/-- C2: for every input string that ends mid-chunk - its final
variable-length value consists only of continuation-flagged characters (codes
95-126 on the wire, chunk values with bit 0x20 set) and never reaches a
character without the continuation bit - Decode signals a malformed-input
error rather than returning a truncated or partial coordinate sequence.
`front` is an arbitrary prefix over the wire character range (not necessarily
a canonical or complete encoding); `tail` is the non-empty trailing run of
continuation-flagged characters that forms the dangling final value. -/
theorem decode_malformed_dangling (p : ℕ) (front tail : List Char)
    (h0 : tail ≠ [])
    (h1 : ∀ c ∈ front, 63 ≤ c.toNat ∧ c.toNat ≤ 126)
    (h2 : ∀ c ∈ tail, 95 ≤ c.toNat ∧ c.toNat ≤ 126) :
    decode (String.mk (front ++ tail)) (p : ℚ) = .error .malformedInput := by
  rw [decode_natCast]
  have hvalid : (front ++ tail).all validCharCode = true := by
    simp only [List.all_append, Bool.and_eq_true]
    constructor
    · rw [List.all_eq_true]
      intro c hc
      have := h1 c hc
      simp only [validCharCode, Bool.and_eq_true, decide_eq_true_eq]
      omega
    · rw [List.all_eq_true]
      intro c hc
      have := h2 c hc
      simp only [validCharCode, Bool.and_eq_true, decide_eq_true_eq]
      omega
  unfold decodeCore
  rw [if_pos hvalid]
  obtain ⟨ti, tc, htail⟩ := (List.eq_nil_or_concat' tail).resolve_left h0
  have hcodes : (front ++ tail).map (fun c : Char => c.toNat - 63) =
      (front.map (fun c : Char => c.toNat - 63) ++ ti.map (fun c : Char => c.toNat - 63)) ++
        [tc.toNat - 63] := by
    rw [htail]
    simp
  have hb32 : 32 ≤ tc.toNat - 63 := by
    have := h2 tc (by rw [htail]; simp)
    omega
  show (decodeLoopAux (front ++ tail).length
      ((front ++ tail).map (fun c : Char => c.toNat - 63)) 0 0).map
      (List.map (unscalePoint p)) = _
  rw [hcodes, decodeLoopAux_last_continuation ((front ++ tail).length) _ _ 0 0 hb32]
  rfl

/-- Closed instance of `decode_malformed_dangling` on the string `"A_"`: one
complete value (`'A'`, chunk code 2) followed by a dangling
continuation-flagged character (`'_'`, chunk code 32), so the final
(longitude) value never terminates. -/
theorem decode_malformed_dangling_witness :
    decode (String.mk (['A'] ++ ['_'])) ((0 : ℕ) : ℚ) = .error .malformedInput :=
  decode_malformed_dangling 0 ['A'] ['_'] (by decide) (by decide) (by decide)

theorem validPrecision_five : validPrecision (5 : ℚ) := by
  constructor
  · norm_num
  · simp

theorem five_num_toNat : ((5 : ℚ)).num.toNat = 5 := by
  rw [Rat.num_ofNat]
  rfl

/-- C3: the canonical known vector - Encode of the three reference points at
precision 5 is exactly `"_p~iF~ps|U_ulLnnqC_mqNvxq`@"`, and Decode of that
string at precision 5 yields three points within 0.5 · 10⁻⁵ degrees per axis
of the three inputs (in fact exactly the inputs, which have at most five
decimals). -/
theorem polyline_known_vector :
    encode [((38.5 : ℚ), (-120.2 : ℚ)), (40.7, -120.95), (43.252, -126.453)] (5 : ℚ) =
      .ok "_p~iF~ps|U_ulLnnqC_mqNvxq`@" ∧
    ∃ l, decode "_p~iF~ps|U_ulLnnqC_mqNvxq`@" (5 : ℚ) = .ok l ∧
      List.Forall₂ (fun c d : ℚ × ℚ => |c.1 - d.1| ≤ 1 / (2 * 10 ^ (5 : ℕ)) ∧
        |c.2 - d.2| ≤ 1 / (2 * 10 ^ (5 : ℕ)))
        [((38.5 : ℚ), (-120.2 : ℚ)), (40.7, -120.95), (43.252, -126.453)] l := by
  have hmap : ([((38.5 : ℚ), (-120.2 : ℚ)), (40.7, -120.95),
      (43.252, -126.453)]).map (scalePoint 5) =
      [((3850000 : ℤ), (-12020000 : ℤ)), (4070000, -12095000), (4325200, -12645300)] := by
    simp only [List.map_cons, List.map_nil, scalePoint, Prod.mk.injEq]
    norm_num [round_eq]
  constructor
  · unfold encode
    rw [if_pos validPrecision_five, five_num_toNat]
    unfold encodeCore
    rw [hmap]
    decide
  · refine ⟨[((38.5 : ℚ), (-120.2 : ℚ)), (40.7, -120.95), (43.252, -126.453)], ?_, ?_⟩
    · unfold decode
      rw [if_pos validPrecision_five, five_num_toNat]
      unfold decodeCore
      rw [if_pos (by decide)]
      have hloop : decodeLoopAux ("_p~iF~ps|U_ulLnnqC_mqNvxq`@".data.length)
          ("_p~iF~ps|U_ulLnnqC_mqNvxq`@".data.map (fun c => c.toNat - 63)) 0 0 =
          .ok [((3850000 : ℤ), (-12020000 : ℤ)), (4070000, -12095000),
            (4325200, -12645300)] := by decide
      rw [hloop]
      show Except.ok _ = Except.ok _
      congr 1
      simp only [List.map_cons, List.map_nil, unscalePoint, Prod.mk.injEq]
      norm_num
    · rw [List.forall₂_same]
      intro c _
      constructor <;> simp

/-- C4: a negative or non-integer precision argument makes both Encode and
Decode signal `invalidPrecision` immediately, rather than producing a
result. -/
theorem invalid_precision_rejected (coords : List (ℚ × ℚ)) (s : String) (prec : ℚ)
    (h : prec < 0 ∨ prec.den ≠ 1) :
    encode coords prec = .error .invalidPrecision ∧
    decode s prec = .error .invalidPrecision := by
  have hnv : ¬ validPrecision prec := by
    unfold validPrecision
    rcases h with h | h
    · rintro ⟨h0, -⟩
      exact absurd h (not_lt.mpr h0)
    · rintro ⟨-, hd⟩
      exact h hd
  unfold encode decode
  rw [if_neg hnv, if_neg hnv]
  exact ⟨rfl, rfl⟩

/-- Closed instance of `invalid_precision_rejected` at precision −1. -/
theorem invalid_precision_rejected_witness :
    encode [] (-1 : ℚ) = .error .invalidPrecision ∧
    decode "" (-1 : ℚ) = .error .invalidPrecision :=
  invalid_precision_rejected [] "" (-1) (Or.inl (by simp))

/-- C5: Encode of the empty coordinate sequence is the empty string and Decode
of the empty string is the empty coordinate sequence, for every non-negative
integer precision; neither call is an error. -/
theorem empty_inputs_are_noops (p : ℕ) :
    encode [] (p : ℚ) = .ok "" ∧ decode "" (p : ℚ) = .ok [] := by
  constructor
  · rw [encode_natCast]
    rfl
  · rw [decode_natCast]
    rfl

theorem encodeCore_map_unscale (coords : List (ℚ × ℚ)) (p : ℕ) :
    encodeCore ((coords.map (scalePoint p)).map (unscalePoint p)) p =
      encodeCore coords p := by
  unfold encodeCore
  have hmaps : (((coords.map (scalePoint p)).map (unscalePoint p)).map (scalePoint p)) =
      coords.map (scalePoint p) := by
    rw [List.map_map, List.map_map]
    apply List.map_congr_left
    intro c _
    exact scalePoint_unscalePoint p (scalePoint p c)
  rw [hmaps]

/-- C6: `toGeoJSON`'s coordinates are exactly Decode's result with each pair's
axis order swapped once (longitude first); `fromGeoJSON` inverts the swap
exactly once before delegating to Encode, so `fromGeoJSON` after `toGeoJSON`
reproduces the encoded polyline string; the swap is never applied twice. -/
theorem geojson_swap_once :
    (∀ (s : String) (prec : ℚ) (l : List (ℚ × ℚ)), decode s prec = .ok l →
      toGeoJSON s prec = .ok ⟨l.map swapAxes⟩) ∧
    (∀ (coords : List (ℚ × ℚ)) (p : ℕ),
      (toGeoJSON (encodeCore coords p) (p : ℚ)).bind (fun g => fromGeoJSON g (p : ℚ)) =
        .ok (encodeCore coords p)) := by
  constructor
  · intro s prec l h
    unfold toGeoJSON
    rw [h]
    rfl
  · intro coords p
    unfold toGeoJSON
    rw [decode_natCast, decodeCore_encodeCore]
    show fromGeoJSON ⟨((coords.map (scalePoint p)).map (unscalePoint p)).map swapAxes⟩
        (p : ℚ) = _
    unfold fromGeoJSON
    show encode ((((coords.map (scalePoint p)).map (unscalePoint p)).map swapAxes).map
        swapAxes) (p : ℚ) = _
    have hswap : ((((coords.map (scalePoint p)).map (unscalePoint p)).map swapAxes).map
        swapAxes) = (coords.map (scalePoint p)).map (unscalePoint p) := by
      rw [List.map_map]
      have : ∀ c ∈ (coords.map (scalePoint p)).map (unscalePoint p),
          (swapAxes ∘ swapAxes) c = id c := fun c _ => rfl
      rw [List.map_congr_left this, List.map_id]
    rw [hswap, encode_natCast, encodeCore_map_unscale]

/-- Closed instance of `geojson_swap_once`: its two components applied to the
single point (1, 2) at precision 0, whose encoded form is `"AC"`. -/
theorem geojson_swap_once_witness :
    toGeoJSON "AC" ((0 : ℕ) : ℚ) = .ok ⟨[((1 : ℚ), (2 : ℚ))].map swapAxes⟩ ∧
    (toGeoJSON (encodeCore [((1 : ℚ), (2 : ℚ))] 0) ((0 : ℕ) : ℚ)).bind
      (fun g => fromGeoJSON g ((0 : ℕ) : ℚ)) = .ok (encodeCore [((1 : ℚ), (2 : ℚ))] 0) :=
  ⟨geojson_swap_once.1 "AC" ((0 : ℕ) : ℚ) [((1 : ℚ), (2 : ℚ))] (by
      rw [decode_natCast]
      unfold decodeCore
      rw [if_pos (by decide)]
      have hloop : decodeLoopAux ("AC".data.length)
          ("AC".data.map (fun c => c.toNat - 63)) 0 0 = .ok [((1 : ℤ), (2 : ℤ))] := by
        decide
      rw [hloop]
      show Except.ok _ = Except.ok _
      congr 1
      simp [unscalePoint]),
    geojson_swap_once.2 [((1 : ℚ), (2 : ℚ))] 0⟩

/-! ### Route rendering (src/frontend/components/direction-icon.tsx, RouteMap) -/

/-- A route leg as consumed by `RouteMap`: transport mode tag, duration
(seconds), distance (meters), the optional encoded polyline of the leg
(`none` models an absent `legGeometry`/`points`), and the leg's endpoint
coordinates. -/
structure RouteLeg where
  mode : String
  duration : ℚ
  distance : ℚ
  legGeometry : Option String
  fromCoord : ℚ × ℚ
  toCoord : ℚ × ℚ
  deriving DecidableEq

/-- One drawn path segment: the decoded coordinates of a leg together with the
style derived from its mode (`color`, `weight` as passed to `L.polyline`). -/
structure Segment where
  mode : String
  coords : List (ℚ × ℚ)
  color : String
  weight : ℕ
  deriving DecidableEq

/-- Color of pedestrian legs (`"WALK"`), `#16a34a` in the source. -/
def walkColor : String := "#16a34a"

/-- Color of every non-pedestrian leg, `#2563eb` in the source. -/
def transitColor : String := "#2563eb"

/-- Accumulator of the `routeData.legs.forEach` loop: the combined coordinate
list `allCoordinates` and the drawn segments. -/
structure RenderState where
  allCoordinates : List (ℚ × ℚ)
  segments : List Segment
  deriving DecidableEq

/-- One iteration of the `forEach` loop in `RouteMap`: a leg without geometry
(absent `legGeometry` or empty `points` - both falsy in the JS guard
`!leg.legGeometry?.points`) is skipped; otherwise its polyline is decoded at
the default precision 5, the decoded points are appended to `allCoordinates`,
and one styled segment is drawn (`#16a34a`/green for mode `"WALK"`, `#2563eb`
/blue otherwise, weight 10).  The decoder modelled from the spec fails fast on
malformed input, which aborts the render. -/
def renderLeg (st : RenderState) (leg : RouteLeg) : Except PolyError RenderState :=
  match leg.legGeometry with
  | none => .ok st
  | some pts =>
    if pts = "" then .ok st
    else
      match decodeCore pts 5 with
      | .error e => .error e
      | .ok decoded =>
        .ok { allCoordinates := st.allCoordinates ++ decoded
              segments := st.segments ++
                [{ mode := leg.mode
                   coords := decoded
                   color := if leg.mode = "WALK" then walkColor else transitColor
                   weight := 10 }] }

/-- The bounding region of a non-empty coordinate list (what
`L.latLngBounds` computes): south-west and north-east corners. -/
def boundsOf : List (ℚ × ℚ) → (ℚ × ℚ) × (ℚ × ℚ)
  | [] => ((0, 0), (0, 0))
  | c :: rest => rest.foldl
      (fun b d => ((min b.1.1 d.1, min b.1.2 d.2), (max b.2.1 d.1, max b.2.2 d.2)))
      (c, c)

/-- The result of the route-drawing effect of `RouteMap`: the combined
coordinate list, the drawn segments, and the bounding region passed to
`fitBounds` - present only when `allCoordinates` is non-empty
(`if (allCoordinates.length > 0)` in the source). -/
structure RenderOutput where
  allCoordinates : List (ℚ × ℚ)
  segments : List Segment
  fitBounds : Option ((ℚ × ℚ) × (ℚ × ℚ))
  deriving DecidableEq

/-- The route-drawing effect of `RouteMap`: fold `renderLeg` over the legs in
order starting from the empty state, then fit the view to the bounds of the
combined coordinate list when it is non-empty. -/
def renderRoute (legs : List RouteLeg) : Except PolyError RenderOutput :=
  match legs.foldlM renderLeg ⟨[], []⟩ with
  | .error e => .error e
  | .ok st => .ok ⟨st.allCoordinates, st.segments,
      if st.allCoordinates.isEmpty then none else some (boundsOf st.allCoordinates)⟩

/-- The independently decoded point list of one leg: empty for a skipped leg
(no geometry or empty points string), otherwise Decode of its polyline at the
default precision 5. -/
def legPoints (leg : RouteLeg) : List (ℚ × ℚ) :=
  match leg.legGeometry with
  | none => []
  | some pts =>
    if pts = "" then []
    else
      match decodeCore pts 5 with
      | .error _ => []
      | .ok decoded => decoded

/-- The segments contributed by one leg (at most one). -/
def legSegments (leg : RouteLeg) : List Segment :=
  match leg.legGeometry with
  | none => []
  | some pts =>
    if pts = "" then []
    else
      match decodeCore pts 5 with
      | .error _ => []
      | .ok decoded =>
        [{ mode := leg.mode
           coords := decoded
           color := if leg.mode = "WALK" then walkColor else transitColor
           weight := 10 }]

theorem foldlM_renderLeg_ok (legs : List RouteLeg) :
    ∀ st0 st, List.foldlM renderLeg st0 legs = .ok st →
      st.allCoordinates = st0.allCoordinates ++ (legs.map legPoints).join ∧
      st.segments = st0.segments ++ (legs.map legSegments).join := by
  induction legs with
  | nil =>
    intro st0 st h
    simp only [List.foldlM] at h
    cases h
    simp
  | cons leg rest ih =>
    intro st0 st h
    rw [List.foldlM_cons] at h
    simp only [List.map_cons, List.join]
    match hgeo : leg.legGeometry with
    | none =>
      have hstep : renderLeg st0 leg = .ok st0 := by
        simp only [renderLeg, hgeo]
      rw [hstep] at h
      have h2 : List.foldlM renderLeg st0 rest = .ok st := h
      have := ih st0 st h2
      simp only [legPoints, legSegments, hgeo, List.nil_append]
      exact this
    | some pts =>
      by_cases hpts : pts = ""
      · have hstep : renderLeg st0 leg = .ok st0 := by
          simp only [renderLeg, hgeo, if_pos hpts]
        rw [hstep] at h
        have h2 : List.foldlM renderLeg st0 rest = .ok st := h
        have := ih st0 st h2
        simp only [legPoints, legSegments, hgeo, if_pos hpts, List.nil_append]
        exact this
      · match hdec : decodeCore pts 5 with
        | .error e =>
          have hstep : renderLeg st0 leg = .error e := by
            simp only [renderLeg, hgeo, if_neg hpts, hdec]
          rw [hstep] at h
          exact absurd (show (Except.error e : Except PolyError RenderState) = .ok st from h)
            (by simp)
        | .ok decoded =>
          have hstep : renderLeg st0 leg = .ok
              { allCoordinates := st0.allCoordinates ++ decoded
                segments := st0.segments ++
                  [{ mode := leg.mode
                     coords := decoded
                     color := if leg.mode = "WALK" then walkColor else transitColor
                     weight := 10 }] } := by
            simp only [renderLeg, hgeo, if_neg hpts, hdec]
          rw [hstep] at h
          have h2 : List.foldlM renderLeg
              { allCoordinates := st0.allCoordinates ++ decoded
                segments := st0.segments ++
                  [{ mode := leg.mode
                     coords := decoded
                     color := if leg.mode = "WALK" then walkColor else transitColor
                     weight := 10 }] } rest = .ok st := h
          obtain ⟨h3, h4⟩ := ih _ st h2
          simp only [legPoints, legSegments, hgeo, if_neg hpts, hdec]
          constructor
          · rw [h3]
            simp [List.append_assoc]
          · rw [h4]
            simp [List.append_assoc]

theorem renderRoute_ok_elim (legs : List RouteLeg) (st : RenderOutput)
    (h : renderRoute legs = .ok st) :
    ∃ stf, List.foldlM renderLeg ⟨[], []⟩ legs = .ok stf ∧
      st.allCoordinates = stf.allCoordinates ∧ st.segments = stf.segments ∧
      st.fitBounds = (if stf.allCoordinates.isEmpty then none
        else some (boundsOf stf.allCoordinates)) := by
  unfold renderRoute at h
  cases hf : List.foldlM renderLeg (⟨[], []⟩ : RenderState) legs with
  | error e =>
    rw [hf] at h
    exact absurd h (by simp)
  | ok stf =>
    rw [hf] at h
    injection h with h
    subst h
    exact ⟨stf, rfl, rfl, rfl, rfl⟩

/-- C7: for a route whose legs all carry an encoded polyline, the renderer's
combined coordinate list is the concatenation, in leg order, of each leg's
independently decoded point list; its length is the sum of the per-leg decoded
point counts (a boundary coordinate shared by two adjacent legs is counted
twice, not deduplicated), and the bounding region for initial view framing is
computed over this combined list. -/
theorem render_concatenates_legs (legs : List RouteLeg) (st : RenderOutput)
    (_hgeom : ∀ leg ∈ legs, ∃ pts, leg.legGeometry = some pts ∧ pts ≠ "")
    (h : renderRoute legs = .ok st) :
    st.allCoordinates = (legs.map legPoints).join ∧
    st.allCoordinates.length = (legs.map (fun leg => (legPoints leg).length)).sum ∧
    st.fitBounds = (if st.allCoordinates.isEmpty then none
      else some (boundsOf st.allCoordinates)) := by
  obtain ⟨stf, hf, hc, hs, hb⟩ := renderRoute_ok_elim legs st h
  obtain ⟨h1, _⟩ := foldlM_renderLeg_ok legs _ _ hf
  have hcoords : st.allCoordinates = (legs.map legPoints).join := by
    rw [hc, h1, List.nil_append]
  refine ⟨hcoords, ?_, ?_⟩
  · rw [hcoords, List.length_join, List.map_map]
    rfl
  · rw [hb, hc]

/-- Closed instance of `render_concatenates_legs` on a one-leg route whose
polyline `"??"` decodes to the single point (0, 0) at the renderer's default
precision 5. -/
theorem render_concatenates_legs_witness :
    (RenderOutput.mk [unscalePoint 5 (0, 0)]
        [Segment.mk "WALK" [unscalePoint 5 (0, 0)] walkColor 10]
        (some (unscalePoint 5 (0, 0), unscalePoint 5 (0, 0)))).allCoordinates =
      ([RouteLeg.mk "WALK" 0 0 (some "??") (0, 0) (0, 0)].map legPoints).join ∧
    (RenderOutput.mk [unscalePoint 5 (0, 0)]
        [Segment.mk "WALK" [unscalePoint 5 (0, 0)] walkColor 10]
        (some (unscalePoint 5 (0, 0), unscalePoint 5 (0, 0)))).allCoordinates.length =
      ([RouteLeg.mk "WALK" 0 0 (some "??") (0, 0) (0, 0)].map
        (fun leg => (legPoints leg).length)).sum ∧
    (RenderOutput.mk [unscalePoint 5 (0, 0)]
        [Segment.mk "WALK" [unscalePoint 5 (0, 0)] walkColor 10]
        (some (unscalePoint 5 (0, 0), unscalePoint 5 (0, 0)))).fitBounds =
      (if (RenderOutput.mk [unscalePoint 5 (0, 0)]
          [Segment.mk "WALK" [unscalePoint 5 (0, 0)] walkColor 10]
          (some (unscalePoint 5 (0, 0), unscalePoint 5 (0, 0)))).allCoordinates.isEmpty
        then none
        else some (boundsOf (RenderOutput.mk [unscalePoint 5 (0, 0)]
          [Segment.mk "WALK" [unscalePoint 5 (0, 0)] walkColor 10]
          (some (unscalePoint 5 (0, 0), unscalePoint 5 (0, 0)))).allCoordinates)) :=
  render_concatenates_legs [RouteLeg.mk "WALK" 0 0 (some "??") (0, 0) (0, 0)]
    (RenderOutput.mk [unscalePoint 5 (0, 0)]
      [Segment.mk "WALK" [unscalePoint 5 (0, 0)] walkColor 10]
      (some (unscalePoint 5 (0, 0), unscalePoint 5 (0, 0))))
    (by
      intro leg hmem
      rw [List.mem_singleton] at hmem
      subst hmem
      exact ⟨"??", rfl, by decide⟩)
    rfl

theorem mem_legSegments_style (seg : Segment) (leg : RouteLeg)
    (h : seg ∈ legSegments leg) :
    seg.color = (if seg.mode = "WALK" then walkColor else transitColor) ∧
    seg.weight = 10 := by
  cases hgeo : leg.legGeometry with
  | none =>
    simp only [legSegments, hgeo] at h
    simp at h
  | some pts =>
    by_cases hpts : pts = ""
    · simp only [legSegments, hgeo, if_pos hpts] at h
      simp at h
    · cases hdec : decodeCore pts 5 with
      | error e =>
        simp only [legSegments, hgeo, if_neg hpts, hdec] at h
        simp at h
      | ok decoded =>
        simp only [legSegments, hgeo, if_neg hpts, hdec] at h
        rw [List.mem_singleton] at h
        subst h
        exact ⟨rfl, rfl⟩

/-- C8: the visual style (color/weight) of each drawn leg segment is a pure,
stateless function of that leg's mode tag alone, partitioning modes into
exactly two classes: the pedestrian class (mode `"WALK"`) receives one style
and every other mode receives the other, and the two styles differ. -/
theorem segment_style_pure_in_mode (legs : List RouteLeg) (st : RenderOutput)
    (h : renderRoute legs = .ok st) :
    (∀ seg ∈ st.segments,
      seg.color = (if seg.mode = "WALK" then walkColor else transitColor) ∧
      seg.weight = 10) ∧
    walkColor ≠ transitColor := by
  refine ⟨?_, by decide⟩
  intro seg hseg
  obtain ⟨stf, hf, _, hs, _⟩ := renderRoute_ok_elim legs st h
  obtain ⟨_, h2⟩ := foldlM_renderLeg_ok legs _ _ hf
  rw [hs, h2, List.nil_append, List.mem_join] at hseg
  obtain ⟨l, hl, hmem⟩ := hseg
  rw [List.mem_map] at hl
  obtain ⟨leg, _, rfl⟩ := hl
  exact mem_legSegments_style seg leg hmem

/-- Closed instance of `segment_style_pure_in_mode` on a one-leg route. -/
theorem segment_style_pure_in_mode_witness :
    (∀ seg ∈ (RenderOutput.mk [unscalePoint 5 (0, 0)]
        [Segment.mk "WALK" [unscalePoint 5 (0, 0)] walkColor 10]
        (some (unscalePoint 5 (0, 0), unscalePoint 5 (0, 0)))).segments,
      seg.color = (if seg.mode = "WALK" then walkColor else transitColor) ∧
      seg.weight = 10) ∧
    walkColor ≠ transitColor :=
  segment_style_pure_in_mode [RouteLeg.mk "WALK" 0 0 (some "??") (0, 0) (0, 0)]
    (RenderOutput.mk [unscalePoint 5 (0, 0)]
      [Segment.mk "WALK" [unscalePoint 5 (0, 0)] walkColor 10]
      (some (unscalePoint 5 (0, 0), unscalePoint 5 (0, 0))))
    rfl

theorem renderLeg_skip (leg : RouteLeg)
    (hskip : leg.legGeometry = none ∨ leg.legGeometry = some "") :
    ∀ st, renderLeg st leg = .ok st := by
  intro st
  rcases hskip with h | h
  · simp only [renderLeg, h]
  · simp [renderLeg, h]

theorem foldlM_renderLeg_skip (leg : RouteLeg)
    (hskip : leg.legGeometry = none ∨ leg.legGeometry = some "") :
    ∀ legs1 legs2 st0,
      List.foldlM renderLeg st0 (legs1 ++ leg :: legs2) =
        List.foldlM renderLeg st0 (legs1 ++ legs2) := by
  intro legs1
  induction legs1 with
  | nil =>
    intro legs2 st0
    rw [List.nil_append, List.nil_append, List.foldlM_cons, renderLeg_skip leg hskip st0]
    rfl
  | cons a l1 ih =>
    intro legs2 st0
    rw [List.cons_append, List.cons_append, List.foldlM_cons, List.foldlM_cons]
    cases hra : renderLeg st0 a with
    | error e => rfl
    | ok s1 =>
      show List.foldlM renderLeg s1 (l1 ++ leg :: legs2) =
        List.foldlM renderLeg s1 (l1 ++ legs2)
      exact ih legs2 s1

theorem foldlM_renderLeg_all_skip (legs : List RouteLeg)
    (hskip : ∀ leg ∈ legs, leg.legGeometry = none ∨ leg.legGeometry = some "") :
    ∀ st0, List.foldlM renderLeg st0 legs = .ok st0 := by
  induction legs with
  | nil => intro st0; rfl
  | cons leg rest ih =>
    intro st0
    rw [List.foldlM_cons, renderLeg_skip leg (hskip leg (by simp)) st0]
    exact ih (fun l hl => hskip l (by simp [hl])) st0

/-- C10: a route leg whose `legGeometry` is absent or whose points string is
empty is skipped entirely - it contributes no coordinates and no drawn
segment (removing it from the route does not change the render result); a
route in which every leg lacks geometry renders to the empty output with no
bounds computation; and in general the fit-to-bounds step is performed
exactly when the combined coordinate list is non-empty. -/
theorem legs_without_geometry_skipped :
    (∀ (legs1 legs2 : List RouteLeg) (leg : RouteLeg),
      (leg.legGeometry = none ∨ leg.legGeometry = some "") →
      renderRoute (legs1 ++ leg :: legs2) = renderRoute (legs1 ++ legs2)) ∧
    (∀ legs : List RouteLeg,
      (∀ leg ∈ legs, leg.legGeometry = none ∨ leg.legGeometry = some "") →
      renderRoute legs = .ok ⟨[], [], none⟩) ∧
    (∀ (legs : List RouteLeg) (st : RenderOutput), renderRoute legs = .ok st →
      (st.fitBounds = none ↔ st.allCoordinates = [])) := by
  refine ⟨?_, ?_, ?_⟩
  · intro legs1 legs2 leg hskip
    unfold renderRoute
    rw [foldlM_renderLeg_skip leg hskip legs1 legs2]
  · intro legs hskip
    unfold renderRoute
    rw [foldlM_renderLeg_all_skip legs hskip]
    rfl
  · intro legs st h
    obtain ⟨stf, _, hc, _, hb⟩ := renderRoute_ok_elim legs st h
    rw [hb, hc]
    rcases hq : stf.allCoordinates with _ | ⟨c, cs⟩
    · simp
    · simp

/-- Closed instance of `legs_without_geometry_skipped`: its three components
applied to a one-leg route without geometry (and, for the third, to the empty
route). -/
theorem legs_without_geometry_skipped_witness :
    renderRoute ([] ++ RouteLeg.mk "BUS" 0 0 none (0, 0) (0, 0) :: []) =
      renderRoute ([] ++ []) ∧
    renderRoute [RouteLeg.mk "BUS" 0 0 none (0, 0) (0, 0)] = .ok ⟨[], [], none⟩ ∧
    ((RenderOutput.mk [] [] none).fitBounds = none ↔
      (RenderOutput.mk [] [] none).allCoordinates = []) :=
  ⟨legs_without_geometry_skipped.1 [] [] (RouteLeg.mk "BUS" 0 0 none (0, 0) (0, 0))
      (Or.inl rfl),
    legs_without_geometry_skipped.2.1 [RouteLeg.mk "BUS" 0 0 none (0, 0) (0, 0)]
      (by
        intro leg hmem
        rw [List.mem_singleton] at hmem
        subst hmem
        exact Or.inl rfl),
    legs_without_geometry_skipped.2.2 [] (RenderOutput.mk [] [] none) rfl⟩

/-! ### Search proxy handler (src/frontend/app/api/onemap/search/route.ts) -/

/-- An HTTP response as produced by the handler: status code and the error
message carried in the JSON body. -/
structure HttpResponse where
  status : ℕ
  body : String
  deriving DecidableEq

/-- The observable outcome of the handler, modelled up to the upstream fetch:
either it responds immediately without contacting OneMap, or it issues the
upstream request to the given URL. -/
inductive SearchOutcome where
  | respond (r : HttpResponse)
  | callUpstream (url : String)
  deriving DecidableEq

/-- The characters `encodeURIComponent` leaves unescaped (ECMA-262:
ASCII letters and digits and `- _ . ! ~ * ' ( )`, here written by code
point). -/
def isUnreservedChar (c : Char) : Bool :=
  c.isAlphanum || c.toNat = 45 || c.toNat = 95 || c.toNat = 46 || c.toNat = 33 ||
    c.toNat = 126 || c.toNat = 42 || c.toNat = 39 || c.toNat = 40 || c.toNat = 41

/-- Upper-case hexadecimal digit of a value below 16. -/
def hexDigit (n : ℕ) : Char :=
  Char.ofNat (if n < 10 then 48 + n else 55 + n)

/-- `%HH` escape of one byte (`%` is code point 37). -/
def percentEncodeByte (b : ℕ) : List Char :=
  [Char.ofNat 37, hexDigit (b / 16), hexDigit (b % 16)]

/-- The UTF-8 bytes of one code point. -/
def utf8Bytes (c : Char) : List ℕ :=
  let n := c.toNat
  if n < 128 then [n]
  else if n < 2048 then [192 + n / 64, 128 + n % 64]
  else if n < 65536 then [224 + n / 4096, 128 + n / 64 % 64, 128 + n % 64]
  else [240 + n / 262144, 128 + n / 4096 % 64, 128 + n / 64 % 64, 128 + n % 64]

/-- JavaScript's `encodeURIComponent`: unreserved characters pass through,
every other character is replaced by the `%HH` escapes of its UTF-8 bytes. -/
def encodeURIComponent (s : String) : String :=
  String.mk ((s.data.map (fun c =>
    if isUnreservedChar c then [c] else (utf8Bytes c).map percentEncodeByte |>.join)).join)

/-- The fixed parts of the upstream OneMap search URL around the encoded
query. -/
def searchUrlBase : String :=
  "https://www.onemap.gov.sg/api/common/elastic/search?searchVal="

def searchUrlTail : String := "&returnGeom=Y&getAddrDetails=Y&pageNum=1"

/-- The GET handler of the search proxy
(src/frontend/app/api/onemap/search/route.ts), modelled up to the upstream
fetch: `none` models a request whose query string lacks the `q` parameter
(`searchParams.get("q")` returns null); the JS falsiness guard `!query` also
treats an empty `q` as missing.  A missing or empty query is answered with
HTTP 400 and the error body, and no upstream request is issued; otherwise the
upstream OneMap request is issued with the query URL-encoded. -/
def searchGET (q : Option String) : SearchOutcome :=
  match q with
  | none => .respond ⟨400, "Search query is required"⟩
  | some query =>
    if query = "" then .respond ⟨400, "Search query is required"⟩
    else .callUpstream (searchUrlBase ++ encodeURIComponent query ++ searchUrlTail)

/-- C9: a GET request to the search proxy whose query string lacks `q` (or has
it empty) is answered with HTTP 400 and an error body, and the upstream OneMap
request is never issued; when `q` is present and non-empty, the upstream
request is issued with `q` URL-encoded into the search URL. -/
theorem search_proxy_requires_query :
    searchGET none = .respond ⟨400, "Search query is required"⟩ ∧
    searchGET (some "") = .respond ⟨400, "Search query is required"⟩ ∧
    (∀ q : String, q ≠ "" →
      searchGET (some q) =
        .callUpstream (searchUrlBase ++ encodeURIComponent q ++ searchUrlTail)) := by
  refine ⟨rfl, rfl, ?_⟩
  intro q hq
  simp only [searchGET, if_neg hq]

/-- Closed instance of `search_proxy_requires_query`: the query `"a b"` is
URL-encoded (the space becomes `%20`) into the upstream URL. -/
theorem search_proxy_requires_query_witness :
    searchGET (some "a b") =
      .callUpstream (searchUrlBase ++ encodeURIComponent "a b" ++ searchUrlTail) :=
  search_proxy_requires_query.2.2 "a b" (by decide)
